import Mathlib

/-!
Verification of the covered-call backtester core (strategy_template.py):
the Black-Scholes call pricer `black_scholes_call` and the weekly
covered-call simulator `generate_signals` of `CoveredCallStrategy`.

Modelling conventions.
Python floats are modelled as real numbers, with one exception: the value
NaN, which the code can produce, is modelled explicitly by `Option ℝ`
(`none` is NaN).  NaN enters through `pandas.Series.std()`, whose default
`ddof = 1` yields NaN on fewer than two observations; it then propagates
through `*`, `+` and through `max(call, 0.0)` (Python `max` keeps the
first argument when the comparison with NaN is false), and finally
`int(cash // price)` raises ValueError on NaN, which is modelled by
`Except`.  Python `//` and `%` on integers are floor division and
modulus, i.e. `Int.fdiv` and `Int.fmod`; `int(cash // price)` on floats
is `Int.floor (cash / price)`.  The external option-chain collaborator
(`get_current_iv`, `yfinance`) is modelled as a function parameter
returning `Option ℝ` (`none` is a failed lookup).  The `W-FRI`
resampling is upstream data preparation and out of scope: the simulator
input is the weekly close series, which `generate_signals` filters to
positive entries (line 60 keeps rows with `pd.notna(Close)` and
`Close > 0`; a NaN entry is not representable in `List ℝ` and is covered
by the positivity filter).
-/

namespace CCBacktest

noncomputable section

open Real MeasureTheory

/-- Density of the standard normal distribution, the mathematical content
of `scipy.stats.norm.pdf`. -/
def normPdf (x : ℝ) : ℝ := (Real.sqrt (2 * Real.pi))⁻¹ * Real.exp (-(x ^ 2) / 2)

/-- Cumulative distribution function of the standard normal distribution,
the mathematical content of `scipy.stats.norm.cdf` (line 53). -/
def normCdf (x : ℝ) : ℝ := ∫ t in Set.Iic x, normPdf t

/-- The auxiliary quantity `d1` of `black_scholes_call` (line 51). -/
def d1 (S K T r sigma : ℝ) : ℝ :=
  (Real.log (S / K) + (r + 0.5 * sigma ^ 2) * T) / (sigma * Real.sqrt T)

/-- The auxiliary quantity `d2` of `black_scholes_call` (line 52). -/
def d2 (S K T r sigma : ℝ) : ℝ := d1 S K T r sigma - sigma * Real.sqrt T

/-- The raw call value of line 53: `S * norm.cdf(d1) - K * exp(-r T) * norm.cdf(d2)`. -/
def bsRaw (S K T r sigma : ℝ) : ℝ :=
  S * normCdf (d1 S K T r sigma) - K * Real.exp (-r * T) * normCdf (d2 S K T r sigma)

/-- `CoveredCallStrategy.black_scholes_call` (lines 48-54): zero on any
non-positive `S`, `K`, `sigma` or `T`, otherwise the closed form clamped
at zero from below. -/
def black_scholes_call (S K T r sigma : ℝ) : ℝ :=
  if S ≤ 0 ∨ K ≤ 0 ∨ sigma ≤ 0 ∨ T ≤ 0 then 0
  else max (bsRaw S K T r sigma) 0

/-- Consecutive differences of logs: `np.log(pd.Series(ps)).diff().dropna()`
(line 91). -/
def logrets : List ℝ → List ℝ
  | [] => []
  | [_] => []
  | a :: b :: rest => (Real.log b - Real.log a) :: logrets (b :: rest)

/-- `pandas.Series.std()` with its default `ddof = 1` (line 92): the square
root of the sum of squared deviations from the mean divided by `n - 1`.
With fewer than two observations the result is NaN, modelled as `none`. -/
def seriesStd (xs : List ℝ) : Option ℝ :=
  if xs.length < 2 then none
  else
    some (Real.sqrt ((xs.map fun x => (x - xs.sum / xs.length) ^ 2).sum /
      (xs.length - 1)))

/-- IEEE-style addition on possibly-NaN floats: NaN absorbs. -/
def optAdd : Option ℝ → Option ℝ → Option ℝ
  | some a, some b => some (a + b)
  | _, _ => none

/-- The simulator state threaded across weeks: `shares`, `cash`,
`premiums_collected` (lines 62-64).  `cash` and `prems` are floats that can
become NaN, hence `Option ℝ`. -/
structure SimState where
  shares : ℤ
  cash : Option ℝ
  prems : Option ℝ

/-- One weekly ledger row: the per-week values appended to the portfolio
columns (lines 105-120, 133-139). -/
structure Row where
  price : ℝ
  shares : ℤ
  contracts : ℤ
  leftover : ℤ
  cash : Option ℝ
  premium : Option ℝ
  premsCollected : Option ℝ
  sigma : Option ℝ
  value : Option ℝ
  assignment : Bool
deriving Inhabited

/-- Reinvestment step (lines 80-83): `shares_to_buy = int(cash // price)`;
if positive, buy that many shares and deduct the cost. -/
def reinvest (price : ℝ) (shares : ℤ) (cash : ℝ) : ℤ × ℝ :=
  let toBuy : ℤ := ⌊cash / price⌋
  if 0 < toBuy then (shares + toBuy, cash - toBuy * price) else (shares, cash)

/-- Historical-volatility branch of lines 89-94: on the first week (`idx = 0`,
empty prefix) the constant `0.2`; afterwards the standard deviation of the
log-returns of all closes through the current week times `sqrt 52`
(NaN, i.e. `none`, when only one log-return is available). -/
def histSigma (prev : List ℝ) (price : ℝ) : Option ℝ :=
  if prev = [] then some 0.2
  else (seriesStd (logrets (prev ++ [price]))).map fun s => s * Real.sqrt 52

/-- Volatility selection (lines 87-94): the fetched implied volatility when
present and positive, else the historical branch. -/
def selectSigma (iv : Option ℝ) (prev : List ℝ) (price : ℝ) : Option ℝ :=
  match iv with
  | some v => if 0 < v then some v else histSigma prev price
  | none => histSigma prev price

/-- Premium-collection step (lines 96-104): with at least one contract, price
the call at strike `price * 1.05`, expiry `1/52`, rate `0.02` and the selected
volatility, scale by the contract count and add to cash and to the cumulative
premiums; with no contracts the premium is `0.0` and nothing changes.
A NaN volatility (`none`) makes the premium, the cash and the cumulative
premiums NaN, exactly as the floating-point code does.  Returns
`(premium, cash, premiums_collected)`. -/
def premiumStep (price : ℝ) (contracts : ℤ) (sig : Option ℝ)
    (cash prems : Option ℝ) : Option ℝ × Option ℝ × Option ℝ :=
  if 0 < contracts then
    let premium := sig.map fun s =>
      black_scholes_call price (price * 1.05) (1 / 52) 0.02 s * (contracts : ℝ)
    (premium, optAdd cash premium, optAdd prems premium)
  else (some 0, cash, prems)

/-- Assignment step (lines 107-115): only with a positive contract count and
a next week available; if the next price reaches the strike, cash grows by
`strike * (contracts * 100)`, the shares drop by `contracts * 100` and the
flag is set.  Returns `(shares, cash, assignment)`. -/
def assignmentStep (contracts : ℤ) (strike : ℝ) (next? : Option ℝ)
    (shares : ℤ) (cash : Option ℝ) : ℤ × Option ℝ × Bool :=
  if 0 < contracts then
    match next? with
    | some np =>
      if strike ≤ np then
        (shares - contracts * 100, optAdd cash (some (strike * (contracts * 100))), true)
      else (shares, cash, false)
    | none => (shares, cash, false)
  else (shares, cash, false)

/-- One loop iteration of lines 77-132 for a week with price `price`, prior
valid prices `prev`, next valid price `next?`, given non-NaN cash `c`:
reinvest, size the lots (`contracts = shares // 100`,
`leftover_shares = shares % 100`), select the volatility, collect the
premium, check assignment, and record the row (shares, cash, value and the
cumulative premiums are recorded after assignment, the leftover before). -/
def stepCore (iv : Option ℝ) (prev : List ℝ) (price : ℝ) (next? : Option ℝ)
    (shares : ℤ) (c : ℝ) (prems : Option ℝ) : SimState × Row :=
  let ri := reinvest price shares c
  let contracts := ri.1.fdiv 100
  let leftover := ri.1.fmod 100
  let sig := selectSigma iv prev price
  let ps := premiumStep price contracts sig (some ri.2) prems
  let asg := assignmentStep contracts (price * 1.05) next? ri.1 ps.2.1
  (⟨asg.1, asg.2.1, ps.2.2⟩,
   { price := price, shares := asg.1, contracts := contracts, leftover := leftover,
     cash := asg.2.1, premium := ps.1, premsCollected := ps.2.2, sigma := sig,
     value := asg.2.1.map fun x => x + (asg.1 : ℝ) * price, assignment := asg.2.2 })

/-- One week of the loop on the simulator state.  Line 80 evaluates
`int(cash // price)`, which raises ValueError when cash is NaN. -/
def stepWeek (iv : Option ℝ) (prev : List ℝ) (price : ℝ) (next? : Option ℝ)
    (st : SimState) : Except String (SimState × Row) :=
  match st.cash with
  | none => .error "ValueError: cannot convert float NaN to integer"
  | some c => .ok (stepCore iv prev price next? st.shares c st.prems)

/-- The weekly loop of lines 77-132 over the remaining valid weeks `rest`,
with the already-processed prices `prev` (so the current index is
`prev.length`, the history of closes through the current week is
`prev ++ [price]`, and the next price of line 110 is `rest.head?`). -/
def runWeeks (iv : Option ℝ) : List ℝ → SimState → List ℝ → Except String (List Row)
  | _, _, [] => .ok []
  | prev, st, price :: rest =>
    match stepWeek iv prev price rest.head? st with
    | .error e => .error e
    | .ok s => match runWeeks iv (prev ++ [price]) s.1 rest with
      | .error e => .error e
      | .ok out => .ok (s.2 :: out)

/-- The initial simulator state (lines 62-64): 100 shares, the configured
initial cash, zero premiums collected. -/
def initState (initialCash : ℝ) : SimState := ⟨100, some initialCash, some 0⟩

/-- `CoveredCallStrategy.generate_signals` (lines 56-144).  `ticker` is the
truthiness of `self.ticker`; `getIv` models `get_current_iv`, the external
implied-volatility collaborator, which swallows its own failures (`none`).
Line 76 evaluates `valid_weeks[0][1]` whenever the ticker is truthy, which
raises IndexError on an empty valid-week list before `get_current_iv` and
its exception handler are ever entered. -/
def generateSignals (ticker : Bool) (getIv : ℝ → Option ℝ) (initialCash : ℝ)
    (weekly : List ℝ) : Except String (List Row) :=
  let valid := weekly.filter fun p => 0 < p
  match ticker, valid with
  | true, [] => .error "IndexError: list index out of range"
  | true, p :: rest => runWeeks (getIv p) [] (initState initialCash) (p :: rest)
  | false, v => runWeeks none [] (initState initialCash) v

/-- The ledger of a run, empty when the run raised. -/
def ledgerOf (ticker : Bool) (getIv : ℝ → Option ℝ) (initialCash : ℝ)
    (weekly : List ℝ) : List Row :=
  match generateSignals ticker getIv initialCash weekly with
  | .ok l => l
  | .error _ => []

/-- The week-0 premium of a no-ticker run starting at price 100 with no cash:
one contract at strike 105, one week to expiry, rate 0.02, fallback
volatility 0.2. -/
def week0cash : ℝ := black_scholes_call 100 105 (1 / 52) 0.02 0.2

/-- The week-0 ledger row of a no-ticker run on a price series starting
`[100, x]` with `x < 105` (or `[100]` alone), with zero initial cash. -/
def week0row : Row :=
  { price := 100, shares := 100, contracts := 1, leftover := 0,
    cash := some week0cash, premium := some week0cash,
    premsCollected := some week0cash, sigma := some 0.2,
    value := some (week0cash + 10000), assignment := false }

/-- The week-1 ledger row of the no-ticker run on `[100, 100]` with zero
initial cash: the lone log-return makes `pandas.Series.std()` NaN, and the
NaN volatility floods the premium, the cash, the cumulative premiums and
the portfolio value. -/
def week1rowNaN : Row :=
  { price := 100, shares := 100, contracts := 1, leftover := 0,
    cash := none, premium := none, premsCollected := none, sigma := none,
    value := none, assignment := false }

/-! ## Facts about the standard normal distribution -/

lemma normPdf_pos (x : ℝ) : 0 < normPdf x := by
  unfold normPdf
  have h2pi : 0 < Real.sqrt (2 * Real.pi) := Real.sqrt_pos.2 (by positivity)
  positivity

lemma normPdf_eq (x : ℝ) :
    normPdf x = (Real.sqrt (2 * Real.pi))⁻¹ * Real.exp (-(1 / 2) * x ^ 2) := by
  unfold normPdf
  congr 1
  ring_nf

lemma integrable_normPdf : Integrable normPdf := by
  have h : Integrable fun x : ℝ => Real.exp (-(1 / 2) * x ^ 2) :=
    integrable_exp_neg_mul_sq (by norm_num)
  have he : normPdf = fun x : ℝ =>
      (Real.sqrt (2 * Real.pi))⁻¹ * Real.exp (-(1 / 2) * x ^ 2) :=
    funext normPdf_eq
  rw [he]
  exact h.const_mul _

lemma continuous_normPdf : Continuous normPdf := by
  unfold normPdf
  continuity

lemma normCdf_sub_normCdf (a b : ℝ) :
    normCdf b - normCdf a = ∫ x in a..b, normPdf x :=
  intervalIntegral.integral_Iic_sub_Iic
    integrable_normPdf.integrableOn integrable_normPdf.integrableOn

lemma hasDerivAt_normCdf (x : ℝ) : HasDerivAt normCdf (normPdf x) x := by
  have h1 : HasDerivAt (fun u => ∫ t in (0:ℝ)..u, normPdf t) (normPdf x) x :=
    intervalIntegral.integral_hasDerivAt_right
      integrable_normPdf.intervalIntegrable
      (continuous_normPdf.stronglyMeasurableAtFilter _ _)
      continuous_normPdf.continuousAt
  have h2 : (fun u => normCdf 0 + ∫ t in (0:ℝ)..u, normPdf t) = normCdf := by
    funext u
    have h := normCdf_sub_normCdf 0 u
    linarith
  have h3 := h1.const_add (normCdf 0)
  rw [h2] at h3
  exact h3

lemma normCdf_nonneg (x : ℝ) : 0 ≤ normCdf x :=
  setIntegral_nonneg measurableSet_Iic fun t _ => (normPdf_pos t).le

lemma integral_normPdf : ∫ x, normPdf x = 1 := by
  have h : ∫ x : ℝ, Real.exp (-(1 / 2) * x ^ 2) = Real.sqrt (Real.pi / (1 / 2)) :=
    integral_gaussian (1 / 2)
  have he : normPdf = fun x : ℝ =>
      (Real.sqrt (2 * Real.pi))⁻¹ * Real.exp (-(1 / 2) * x ^ 2) :=
    funext normPdf_eq
  rw [he, integral_mul_left, h,
    show Real.pi / (1 / 2) = 2 * Real.pi by ring]
  exact inv_mul_cancel₀ (Real.sqrt_pos.2 (by positivity)).ne'

lemma normCdf_lt_one (x : ℝ) : normCdf x < 1 := by
  have hcompl := integral_add_compl (s := Set.Iic x) (f := normPdf)
    measurableSet_Iic integrable_normPdf
  rw [Set.compl_Iic, integral_normPdf] at hcompl
  have hpos : 0 < ∫ t in Set.Ioi x, normPdf t := by
    refine (setIntegral_pos_iff_support_of_nonneg_ae
      (Filter.Eventually.of_forall fun t => (normPdf_pos t).le)
      integrable_normPdf.integrableOn).2 ?_
    have hsupp : Function.support normPdf = Set.univ := by
      ext t
      simp [Function.mem_support, (normPdf_pos t).ne']
    rw [hsupp, Set.univ_inter, Real.volume_Ioi]
    exact ENNReal.zero_lt_top
  have hx : normCdf x + (∫ t in Set.Ioi x, normPdf t) = 1 := hcompl
  linarith

/-! ## Facts about the pricer -/

lemma bs_nonneg (S K T r sigma : ℝ) : 0 ≤ black_scholes_call S K T r sigma := by
  unfold black_scholes_call
  split
  · exact le_rfl
  · exact le_max_right _ _

lemma bs_lt_spot (S K T r sigma : ℝ) (hS : 0 < S) :
    black_scholes_call S K T r sigma < S := by
  unfold black_scholes_call
  by_cases hdeg : S ≤ 0 ∨ K ≤ 0 ∨ sigma ≤ 0 ∨ T ≤ 0
  · rw [if_pos hdeg]
    exact hS
  · rw [if_neg hdeg]
    push_neg at hdeg
    obtain ⟨h1, h2, h3, h4⟩ := hdeg
    have hsub : 0 ≤ K * Real.exp (-r * T) * normCdf (d2 S K T r sigma) :=
      mul_nonneg (mul_nonneg h2.le (Real.exp_pos _).le) (normCdf_nonneg _)
    have hlt : S * normCdf (d1 S K T r sigma) < S := by
      have h := mul_lt_mul_of_pos_left (normCdf_lt_one (d1 S K T r sigma)) hS
      rw [mul_one] at h
      exact h
    have : bsRaw S K T r sigma < S := by
      unfold bsRaw
      linarith
    exact max_lt this hS

/-- C4: the pricer returns exactly 0 on any non-positive `S`, `K`, `sigma`
or `T` (no error raised), and its value is nonnegative on all (finite real)
inputs. -/
theorem pricer_degenerate_zero_and_nonneg (S K T r sigma : ℝ) :
    ((S ≤ 0 ∨ K ≤ 0 ∨ sigma ≤ 0 ∨ T ≤ 0) → black_scholes_call S K T r sigma = 0) ∧
      0 ≤ black_scholes_call S K T r sigma := by
  refine ⟨fun h => ?_, bs_nonneg S K T r sigma⟩
  unfold black_scholes_call
  rw [if_pos h]

/-- Witness for C4 at the concrete degenerate input `S = 0` and at a
nondegenerate input. -/
theorem pricer_degenerate_zero_and_nonneg_witness :
    black_scholes_call 0 100 (1 / 52) 0.02 0.2 = 0 ∧
      0 ≤ black_scholes_call 100 105 (1 / 52) 0.02 0.2 :=
  ⟨(pricer_degenerate_zero_and_nonneg 0 100 (1 / 52) 0.02 0.2).1 (Or.inl le_rfl),
   (pricer_degenerate_zero_and_nonneg 100 105 (1 / 52) 0.02 0.2).2⟩

lemma hasDerivAt_d1 {K T r sigma : ℝ} (hK : 0 < K) (hT : 0 < T) (hs : 0 < sigma)
    {S : ℝ} (hS : 0 < S) :
    HasDerivAt (fun u => d1 u K T r sigma) (S⁻¹ / (sigma * Real.sqrt T)) S := by
  have hg : HasDerivAt (fun u : ℝ =>
      (Real.log u - Real.log K + (r + 0.5 * sigma ^ 2) * T) / (sigma * Real.sqrt T))
      (S⁻¹ / (sigma * Real.sqrt T)) S :=
    (((Real.hasDerivAt_log hS.ne').sub_const (Real.log K)).add_const _).div_const _
  refine hg.congr_of_eventuallyEq ?_
  filter_upwards [eventually_gt_nhds hS] with u hu
  unfold d1
  rw [Real.log_div hu.ne' hK.ne']

lemma hasDerivAt_d2 {K T r sigma : ℝ} (hK : 0 < K) (hT : 0 < T) (hs : 0 < sigma)
    {S : ℝ} (hS : 0 < S) :
    HasDerivAt (fun u => d2 u K T r sigma) (S⁻¹ / (sigma * Real.sqrt T)) S := by
  unfold d2
  exact (hasDerivAt_d1 hK hT hs hS).sub_const _

lemma gaussian_cancel {K T r sigma : ℝ} (hK : 0 < K) (hT : 0 < T) (hs : 0 < sigma)
    {S : ℝ} (hS : 0 < S) :
    S * normPdf (d1 S K T r sigma) =
      K * Real.exp (-r * T) * normPdf (d2 S K T r sigma) := by
  have ha : 0 < sigma * Real.sqrt T := mul_pos hs (Real.sqrt_pos.2 hT)
  have ha2 : (sigma * Real.sqrt T) ^ 2 = sigma ^ 2 * T := by
    rw [mul_pow, Real.sq_sqrt hT.le]
  have had1 : sigma * Real.sqrt T * d1 S K T r sigma
      = Real.log (S / K) + (r + 0.5 * sigma ^ 2) * T := by
    unfold d1
    field_simp
  have hc : (0:ℝ) < Real.sqrt (2 * Real.pi) := Real.sqrt_pos.2 (by positivity)
  unfold normPdf d2
  rw [show -((d1 S K T r sigma - sigma * Real.sqrt T) ^ 2) / 2
      = -(d1 S K T r sigma ^ 2) / 2 + (Real.log (S / K) + r * T) by
    linear_combination had1 - (1 / 2) * ha2]
  rw [Real.exp_add, Real.exp_add, Real.exp_log (div_pos hS hK),
    show -r * T = -(r * T) by ring, Real.exp_neg]
  field_simp
  ring

lemma hasDerivAt_bsRaw {K T r sigma : ℝ} (hK : 0 < K) (hT : 0 < T) (hs : 0 < sigma)
    {S : ℝ} (hS : 0 < S) :
    HasDerivAt (fun u => bsRaw u K T r sigma) (normCdf (d1 S K T r sigma)) S := by
  have ha : 0 < sigma * Real.sqrt T := mul_pos hs (Real.sqrt_pos.2 hT)
  have hn1 : HasDerivAt (fun u => normCdf (d1 u K T r sigma))
      (normPdf (d1 S K T r sigma) * (S⁻¹ / (sigma * Real.sqrt T))) S :=
    (hasDerivAt_normCdf (d1 S K T r sigma)).comp S (hasDerivAt_d1 hK hT hs hS)
  have hn2 : HasDerivAt (fun u => normCdf (d2 u K T r sigma))
      (normPdf (d2 S K T r sigma) * (S⁻¹ / (sigma * Real.sqrt T))) S :=
    (hasDerivAt_normCdf (d2 S K T r sigma)).comp S (hasDerivAt_d2 hK hT hs hS)
  have hprod : HasDerivAt (fun u => u * normCdf (d1 u K T r sigma))
      (1 * normCdf (d1 S K T r sigma) +
        S * (normPdf (d1 S K T r sigma) * (S⁻¹ / (sigma * Real.sqrt T)))) S :=
    (hasDerivAt_id' (x := S)).mul hn1
  have hsecond : HasDerivAt
      (fun u => K * Real.exp (-r * T) * normCdf (d2 u K T r sigma))
      (K * Real.exp (-r * T) *
        (normPdf (d2 S K T r sigma) * (S⁻¹ / (sigma * Real.sqrt T)))) S :=
    hn2.const_mul _
  have htot := hprod.sub hsecond
  have hval : 1 * normCdf (d1 S K T r sigma) +
      S * (normPdf (d1 S K T r sigma) * (S⁻¹ / (sigma * Real.sqrt T))) -
      K * Real.exp (-r * T) *
        (normPdf (d2 S K T r sigma) * (S⁻¹ / (sigma * Real.sqrt T)))
      = normCdf (d1 S K T r sigma) := by
    have hcancel := gaussian_cancel (r := r) hK hT hs hS
    rw [show K * Real.exp (-r * T) *
          (normPdf (d2 S K T r sigma) * (S⁻¹ / (sigma * Real.sqrt T)))
        = K * Real.exp (-r * T) * normPdf (d2 S K T r sigma) *
          (S⁻¹ / (sigma * Real.sqrt T)) by ring, ← hcancel]
    ring
  rw [hval] at htot
  exact htot

lemma bsRaw_monotoneOn {K T r sigma : ℝ} (hK : 0 < K) (hT : 0 < T) (hs : 0 < sigma) :
    MonotoneOn (fun u => bsRaw u K T r sigma) (Set.Ioi 0) := by
  have hdiff : DifferentiableOn ℝ (fun u => bsRaw u K T r sigma) (Set.Ioi 0) :=
    fun x hx => (hasDerivAt_bsRaw hK hT hs hx).differentiableAt.differentiableWithinAt
  refine monotoneOn_of_deriv_nonneg (convex_Ioi 0) hdiff.continuousOn ?_ ?_
  · rw [interior_Ioi]
    exact hdiff
  · intro x hx
    rw [interior_Ioi] at hx
    rw [(hasDerivAt_bsRaw hK hT hs hx).deriv]
    exact normCdf_nonneg _

/-- C8: with `K`, `T`, `r`, `sigma` fixed and `K`, `T`, `sigma` positive, the
pricer is non-decreasing in the spot `S`. -/
theorem pricer_monotone_in_spot (K T r sigma : ℝ) (hK : 0 < K) (hT : 0 < T)
    (hs : 0 < sigma) (S1 S2 : ℝ) (h12 : S1 ≤ S2) :
    black_scholes_call S1 K T r sigma ≤ black_scholes_call S2 K T r sigma := by
  by_cases hS1 : S1 ≤ 0
  · have h0 : black_scholes_call S1 K T r sigma = 0 := by
      unfold black_scholes_call
      rw [if_pos (Or.inl hS1)]
    rw [h0]
    exact bs_nonneg _ _ _ _ _
  · push_neg at hS1
    have hS2 : 0 < S2 := lt_of_lt_of_le hS1 h12
    have hcond : ∀ u : ℝ, 0 < u →
        black_scholes_call u K T r sigma = max (bsRaw u K T r sigma) 0 := by
      intro u hu
      unfold black_scholes_call
      rw [if_neg]
      rintro (h | h | h | h) <;> linarith
    rw [hcond S1 hS1, hcond S2 hS2]
    exact max_le_max
      (bsRaw_monotoneOn hK hT hs (Set.mem_Ioi.2 hS1) (Set.mem_Ioi.2 hS2) h12) le_rfl

/-- Witness for C8 at concrete spots 100 and 101. -/
theorem pricer_monotone_in_spot_witness :
    black_scholes_call 100 105 (1 / 52) 0.02 0.2 ≤
      black_scholes_call 101 105 (1 / 52) 0.02 0.2 :=
  pricer_monotone_in_spot 105 (1 / 52) 0.02 0.2 (by norm_num) (by norm_num)
    (by norm_num) 100 101 (by norm_num)

/-! ## Step-level claims -/

/-- C3: the assignment step.  With a positive contract count and a next week
whose price reaches the current strike (current price times 1.05), cash grows
by `strike * (contracts * 100)`, shares fall by `contracts * 100` and the
recorded flag is true; with the next price below the strike, or no next week,
or zero contracts, shares and cash are untouched by the assignment step and
the flag is false. -/
theorem assignment_step_effect (price : ℝ) (contracts : ℤ) (np : ℝ)
    (next? : Option ℝ) (shares : ℤ) (cash : Option ℝ) :
    (0 < contracts → next? = some np → price * 1.05 ≤ np →
      assignmentStep contracts (price * 1.05) next? shares cash =
        (shares - contracts * 100,
         optAdd cash (some (price * 1.05 * ((contracts * 100 : ℤ) : ℝ))), true)) ∧
    (next? = some np → np < price * 1.05 →
      assignmentStep contracts (price * 1.05) next? shares cash =
        (shares, cash, false)) ∧
    (next? = none →
      assignmentStep contracts (price * 1.05) next? shares cash =
        (shares, cash, false)) ∧
    (contracts = 0 →
      assignmentStep contracts (price * 1.05) next? shares cash =
        (shares, cash, false)) := by
  refine ⟨?_, ?_, ?_, ?_⟩
  · intro hc hn hge
    subst hn
    simp [assignmentStep, hc, hge]
  · intro hn hlt
    subst hn
    by_cases hc : 0 < contracts
    · simp [assignmentStep, hc, not_le.2 hlt]
    · simp [assignmentStep, hc]
  · intro hn
    subst hn
    by_cases hc : 0 < contracts <;> simp [assignmentStep, hc]
  · intro hc
    subst hc
    simp [assignmentStep]

/-- Witness for C3: one contract, strike 105, next price 106, 100 shares. -/
theorem assignment_step_effect_witness :
    assignmentStep 1 (100 * 1.05) (some 106) 100 (some 0) =
      (100 - 1 * 100, optAdd (some 0) (some (100 * 1.05 * ((1 * 100 : ℤ) : ℝ))), true) :=
  (assignment_step_effect 100 1 106 (some 106) 100 (some 0)).1 (by norm_num) rfl
    (by norm_num)

/-- C7: in a week whose lot sizing yields zero contracts, the premium is
exactly `0.0`, the cumulative premiums are unchanged, the assignment flag is
false regardless of the next price, and the cash is exactly the
post-reinvestment cash (untouched by the premium and assignment steps). -/
theorem zero_contracts_week (iv : Option ℝ) (prev : List ℝ) (price : ℝ)
    (next? : Option ℝ) (shares : ℤ) (c : ℝ) (prems : Option ℝ)
    (h0 : (reinvest price shares c).1.fdiv 100 = 0) :
    (stepCore iv prev price next? shares c prems).2.contracts = 0 ∧
    (stepCore iv prev price next? shares c prems).2.premium = some 0 ∧
    (stepCore iv prev price next? shares c prems).2.premsCollected = prems ∧
    (stepCore iv prev price next? shares c prems).2.assignment = false ∧
    (stepCore iv prev price next? shares c prems).2.cash =
      some (reinvest price shares c).2 := by
  unfold stepCore premiumStep assignmentStep
  simp [h0]

/-- Witness for C7: 50 shares, no cash, favorable next price. -/
theorem zero_contracts_week_witness :
    (stepCore none [] 100 (some 1000) 50 0 (some 0)).2.premium = some 0 ∧
    (stepCore none [] 100 (some 1000) 50 0 (some 0)).2.assignment = false := by
  have h0 : (reinvest 100 50 0).1.fdiv 100 = 0 := by
    norm_num [reinvest]
    decide
  exact ⟨(zero_contracts_week none [] 100 (some 1000) 50 0 (some 0) h0).2.1,
    (zero_contracts_week none [] 100 (some 1000) 50 0 (some 0) h0).2.2.2.1⟩

/-! ## Structural lemmas about the weekly loop -/

lemma runWeeks_cons_eq (iv : Option ℝ) (prev : List ℝ) (st : SimState) (p : ℝ)
    (rest : List ℝ) :
    runWeeks iv prev st (p :: rest) =
      match st.cash with
      | none => Except.error "ValueError: cannot convert float NaN to integer"
      | some c =>
        match runWeeks iv (prev ++ [p])
            (stepCore iv prev p rest.head? st.shares c st.prems).1 rest with
        | Except.error e => Except.error e
        | Except.ok out =>
            Except.ok ((stepCore iv prev p rest.head? st.shares c st.prems).2 :: out) := by
  obtain ⟨sh, cash, pr⟩ := st
  cases cash <;> rfl

lemma runWeeks_cons_ok {iv : Option ℝ} {prev : List ℝ} {st : SimState} {p : ℝ}
    {rest : List ℝ} {L : List Row}
    (h : runWeeks iv prev st (p :: rest) = Except.ok L) :
    ∃ c L1, st.cash = some c ∧
      runWeeks iv (prev ++ [p])
        (stepCore iv prev p rest.head? st.shares c st.prems).1 rest = Except.ok L1 ∧
      L = (stepCore iv prev p rest.head? st.shares c st.prems).2 :: L1 := by
  rw [runWeeks_cons_eq] at h
  cases hc : st.cash with
  | none =>
    rw [hc] at h
    exact Except.noConfusion h
  | some c =>
    rw [hc] at h
    have h2 : (match runWeeks iv (prev ++ [p])
        (stepCore iv prev p rest.head? st.shares c st.prems).1 rest with
      | Except.error e => (Except.error e : Except String (List Row))
      | Except.ok out =>
          Except.ok ((stepCore iv prev p rest.head? st.shares c st.prems).2 :: out))
        = Except.ok L := h
    cases hr : runWeeks iv (prev ++ [p])
        (stepCore iv prev p rest.head? st.shares c st.prems).1 rest with
    | error e =>
      rw [hr] at h2
      exact Except.noConfusion h2
    | ok L1 =>
      rw [hr] at h2
      exact ⟨c, L1, rfl, hr, (Except.ok.inj h2).symm⟩

lemma runWeeks_length {iv : Option ℝ} :
    ∀ {rest : List ℝ} {prev : List ℝ} {st : SimState} {L : List Row},
      runWeeks iv prev st rest = Except.ok L → L.length = rest.length := by
  intro rest
  induction rest with
  | nil =>
    intro prev st L h
    have hL : L = [] :=
      (Except.ok.inj (h : (Except.ok [] : Except String (List Row)) = Except.ok L)).symm
    subst hL
    rfl
  | cons p rest ih =>
    intro prev st L h
    obtain ⟨c, L1, hc, hr, hL⟩ := runWeeks_cons_ok h
    subst hL
    simp [ih hr]

lemma stepCore_row_eq_state (iv : Option ℝ) (prev : List ℝ) (price : ℝ)
    (next? : Option ℝ) (shares : ℤ) (c : ℝ) (prems : Option ℝ) :
    (stepCore iv prev price next? shares c prems).2.shares =
      (stepCore iv prev price next? shares c prems).1.shares ∧
    (stepCore iv prev price next? shares c prems).2.cash =
      (stepCore iv prev price next? shares c prems).1.cash ∧
    (stepCore iv prev price next? shares c prems).2.premsCollected =
      (stepCore iv prev price next? shares c prems).1.prems :=
  ⟨rfl, rfl, rfl⟩

lemma reinvest_fst_ge (price : ℝ) (shares : ℤ) (c : ℝ) :
    shares ≤ (reinvest price shares c).1 := by
  by_cases h : 0 < ⌊c / price⌋
  · simp only [reinvest, if_pos h]
    linarith
  · simp [reinvest, h]

lemma reinvest_eq_of_nonneg {price c : ℝ} (shares : ℤ) (hp : 0 < price) (hc : 0 ≤ c) :
    (reinvest price shares c).1 = shares + ⌊c / price⌋ ∧
    (reinvest price shares c).2 = c - ⌊c / price⌋ * price := by
  have h0 : 0 ≤ ⌊c / price⌋ := Int.floor_nonneg.2 (div_nonneg hc hp.le)
  by_cases h : 0 < ⌊c / price⌋
  · simp [reinvest, h]
  · have hz : ⌊c / price⌋ = 0 := le_antisymm (not_lt.1 h) h0
    simp [reinvest, h, hz]

lemma reinvest_cash_nonneg {price c : ℝ} (shares : ℤ) (hp : 0 < price) (hc : 0 ≤ c) :
    0 ≤ (reinvest price shares c).2 := by
  obtain ⟨h1, h2⟩ := reinvest_eq_of_nonneg shares hp hc
  rw [h2]
  have hle : (⌊c / price⌋ : ℝ) * price ≤ c / price * price :=
    mul_le_mul_of_nonneg_right (Int.floor_le _) hp.le
  rw [div_mul_cancel₀ c hp.ne'] at hle
  linarith

lemma stepCore_fst_shares_cases (iv : Option ℝ) (prev : List ℝ) (price : ℝ)
    (next? : Option ℝ) (shares : ℤ) (c : ℝ) (prems : Option ℝ) :
    (stepCore iv prev price next? shares c prems).1.shares = (reinvest price shares c).1 ∨
    (stepCore iv prev price next? shares c prems).1.shares =
      (reinvest price shares c).1.fmod 100 := by
  have hdm := Int.fdiv_add_fmod (reinvest price shares c).1 100
  unfold stepCore assignmentStep
  by_cases hcon : 0 < (reinvest price shares c).1.fdiv 100
  · cases hn : next? with
    | none =>
      left
      simp [hcon, hn]
    | some np =>
      by_cases hk : price * 1.05 ≤ np
      · right
        simp [hcon, hn, hk]
        linarith
      · left
        simp [hcon, hn, hk]
  · left
    simp [hcon]

lemma stepCore_cash_nonneg (iv : Option ℝ) (prev : List ℝ) (price : ℝ)
    (next? : Option ℝ) (shares : ℤ) (c : ℝ) (prems : Option ℝ)
    (hp : 0 < price) (hc : 0 ≤ c) :
    ∀ c1, (stepCore iv prev price next? shares c prems).1.cash = some c1 → 0 ≤ c1 := by
  intro c1 h1
  have hri : 0 ≤ (reinvest price shares c).2 := reinvest_cash_nonneg shares hp hc
  unfold stepCore premiumStep assignmentStep at h1
  by_cases hcon : 0 < (reinvest price shares c).1.fdiv 100
  · cases hsig : selectSigma iv prev price with
    | none =>
      simp [hcon, hsig, optAdd] at h1
      cases hn : next? with
      | none =>
        rw [hn] at h1
        simp at h1
      | some np =>
        rw [hn] at h1
        by_cases hk : price * 1.05 ≤ np <;> simp [hk, optAdd] at h1
    | some s =>
      have hbs : 0 ≤ black_scholes_call price (price * 1.05) (1 / 52) 0.02 s *
          (((reinvest price shares c).1.fdiv 100 : ℤ) : ℝ) :=
        mul_nonneg (bs_nonneg _ _ _ _ _) (by exact_mod_cast hcon.le)
      cases hn : next? with
      | none =>
        rw [hn] at h1
        simp [hcon, hsig, optAdd] at h1
        linarith
      | some np =>
        rw [hn] at h1
        by_cases hk : price * 1.05 ≤ np
        · simp [hcon, hsig, hk, optAdd] at h1
          have hstrike : (0:ℝ) ≤ price * 1.05 *
              ((((reinvest price shares c).1.fdiv 100 : ℤ) : ℝ) * 100) := by
            have h100 : (0:ℝ) ≤ (((reinvest price shares c).1.fdiv 100 : ℤ) : ℝ) := by
              exact_mod_cast hcon.le
            nlinarith
          rw [one_div] at hbs
          linarith
        · simp [hcon, hsig, hk, optAdd] at h1
          rw [one_div] at hbs
          linarith
  · simp [hcon, optAdd] at h1
    linarith

lemma stepCore_row_identity (iv : Option ℝ) (prev : List ℝ) (price : ℝ)
    (next? : Option ℝ) (shares : ℤ) (c : ℝ) (prems : Option ℝ) :
    ((stepCore iv prev price next? shares c prems).2.assignment = true →
      (stepCore iv prev price next? shares c prems).2.shares =
        (stepCore iv prev price next? shares c prems).2.leftover) ∧
    ((stepCore iv prev price next? shares c prems).2.assignment = false →
      (stepCore iv prev price next? shares c prems).2.shares =
        (stepCore iv prev price next? shares c prems).2.contracts * 100 +
          (stepCore iv prev price next? shares c prems).2.leftover) := by
  have hdm := Int.fdiv_add_fmod (reinvest price shares c).1 100
  unfold stepCore assignmentStep
  by_cases hcon : 0 < (reinvest price shares c).1.fdiv 100
  · cases hn : next? with
    | none =>
      simp [hcon, hn]
      linarith
    | some np =>
      by_cases hk : price * 1.05 ≤ np
      · simp [hcon, hn, hk]
        linarith
      · simp [hcon, hn, hk]
        linarith
  · simp [hcon]
    linarith

lemma assignmentStep_fst (contracts : ℤ) (strike : ℝ) (next? : Option ℝ)
    (sh : ℤ) (cash : Option ℝ) :
    (assignmentStep contracts strike next? sh cash).1 =
      sh - (if (assignmentStep contracts strike next? sh cash).2.2 then
        contracts * 100 else 0) := by
  unfold assignmentStep
  by_cases hc : 0 < contracts
  · cases next? with
    | none => simp [hc]
    | some np => by_cases hk : strike ≤ np <;> simp [hc, hk]
  · simp [hc]

lemma stepCore_row_shares_def (iv : Option ℝ) (prev : List ℝ) (price : ℝ)
    (next? : Option ℝ) (shares : ℤ) (c : ℝ) (prems : Option ℝ) :
    (stepCore iv prev price next? shares c prems).2.shares =
      (assignmentStep ((reinvest price shares c).1.fdiv 100) (price * 1.05) next?
        (reinvest price shares c).1
        (premiumStep price ((reinvest price shares c).1.fdiv 100)
          (selectSigma iv prev price) (some (reinvest price shares c).2) prems).2.1).1 :=
  rfl

lemma stepCore_row_assignment_def (iv : Option ℝ) (prev : List ℝ) (price : ℝ)
    (next? : Option ℝ) (shares : ℤ) (c : ℝ) (prems : Option ℝ) :
    (stepCore iv prev price next? shares c prems).2.assignment =
      (assignmentStep ((reinvest price shares c).1.fdiv 100) (price * 1.05) next?
        (reinvest price shares c).1
        (premiumStep price ((reinvest price shares c).1.fdiv 100)
          (selectSigma iv prev price) (some (reinvest price shares c).2) prems).2.1).2.2 :=
  rfl

lemma stepCore_row_contracts_def (iv : Option ℝ) (prev : List ℝ) (price : ℝ)
    (next? : Option ℝ) (shares : ℤ) (c : ℝ) (prems : Option ℝ) :
    (stepCore iv prev price next? shares c prems).2.contracts =
      (reinvest price shares c).1.fdiv 100 :=
  rfl

lemma stepCore_row_recurrence (iv : Option ℝ) (prev : List ℝ) (price : ℝ)
    (next? : Option ℝ) (shares : ℤ) (c : ℝ) (prems : Option ℝ)
    (hp : 0 < price) (hc : 0 ≤ c) :
    (stepCore iv prev price next? shares c prems).2.price = price ∧
    (stepCore iv prev price next? shares c prems).2.shares = shares + ⌊c / price⌋ -
      (if (stepCore iv prev price next? shares c prems).2.assignment then
        100 * (stepCore iv prev price next? shares c prems).2.contracts else 0) := by
  obtain ⟨h1, h2⟩ := reinvest_eq_of_nonneg shares hp hc
  refine ⟨rfl, ?_⟩
  rw [stepCore_row_shares_def, stepCore_row_assignment_def, stepCore_row_contracts_def,
    assignmentStep_fst, h1]
  cases hb : (assignmentStep ((shares + ⌊c / price⌋).fdiv 100) (price * 1.05) next?
      (shares + ⌊c / price⌋)
      (premiumStep price ((shares + ⌊c / price⌋).fdiv 100)
        (selectSigma iv prev price) (some (reinvest price shares c).2) prems).2.1).2.2 <;>
    simp [hb] <;> ring

lemma runWeeks_mem_of_stepProp {iv : Option ℝ} (Inv : SimState → Prop) (Q : Row → Prop)
    (hstep : ∀ prev price next? st c, st.cash = some c → Inv st →
      Inv (stepCore iv prev price next? st.shares c st.prems).1 ∧
      Q (stepCore iv prev price next? st.shares c st.prems).2) :
    ∀ {rest prev : List ℝ} {st : SimState} {L : List Row},
      runWeeks iv prev st rest = Except.ok L → Inv st → ∀ row ∈ L, Q row := by
  intro rest
  induction rest with
  | nil =>
    intro prev st L h _ row hm
    have hL : L = [] :=
      (Except.ok.inj (h : (Except.ok [] : Except String (List Row)) = Except.ok L)).symm
    subst hL
    simp at hm
  | cons p rest ih =>
    intro prev st L h hInv row hm
    obtain ⟨c, L1, hc, hr, hL⟩ := runWeeks_cons_ok h
    subst hL
    obtain ⟨hInv1, hQ⟩ := hstep prev p rest.head? st c hc hInv
    rcases List.mem_cons.1 hm with h1 | h1
    · subst h1
      exact hQ
    · exact ih hr hInv1 row h1

lemma generateSignals_ok_elim {ticker : Bool} {getIv : ℝ → Option ℝ}
    {initialCash : ℝ} {weekly : List ℝ} {L : List Row} {motive : Prop}
    (h : generateSignals ticker getIv initialCash weekly = Except.ok L)
    (hrun : ∀ iv, runWeeks iv [] (initState initialCash)
      (weekly.filter fun p => 0 < p) = Except.ok L → motive) : motive := by
  simp only [generateSignals] at h
  cases ticker with
  | false => exact hrun none h
  | true =>
    cases hv : weekly.filter fun p => 0 < p with
    | nil =>
      rw [hv] at h
      exact Except.noConfusion h
    | cons p rest =>
      rw [hv] at h
      refine hrun (getIv p) ?_
      rw [hv]
      exact h

lemma runWeeks_chain {iv : Option ℝ} :
    ∀ {rest prev : List ℝ} {st : SimState} {L : List Row},
      runWeeks iv prev st rest = Except.ok L →
      (∀ p ∈ rest, 0 < p) →
      (∀ c0, st.cash = some c0 → 0 ≤ c0) →
      ∀ i, i + 1 < L.length → ∀ c, (L.getD i default).cash = some c →
        (L.getD (i + 1) default).shares
          = (L.getD i default).shares + ⌊c / (L.getD (i + 1) default).price⌋ -
            (if (L.getD (i + 1) default).assignment then
              100 * (L.getD (i + 1) default).contracts else 0) := by
  intro rest
  induction rest with
  | nil =>
    intro prev st L h _ _ i hi c hc
    have hL : L = [] :=
      (Except.ok.inj (h : (Except.ok [] : Except String (List Row)) = Except.ok L)).symm
    subst hL
    simp at hi
  | cons p rest ih =>
    intro prev st L h hpos hcash i hi c hgetc
    obtain ⟨c0, L1, hc0, hr, hL⟩ := runWeeks_cons_ok h
    subst hL
    have hc0n : 0 ≤ c0 := hcash c0 hc0
    have hpp : 0 < p := hpos p (List.mem_cons_self p rest)
    have hcash1 : ∀ cx,
        (stepCore iv prev p rest.head? st.shares c0 st.prems).1.cash = some cx → 0 ≤ cx :=
      stepCore_cash_nonneg iv prev p rest.head? st.shares c0 st.prems hpp hc0n
    cases i with
    | succ j =>
      have hi1 : j + 1 < L1.length := by simpa using hi
      have hg1 : (L1.getD j default).cash = some c := by simpa using hgetc
      have hrec := ih hr (fun q hq => hpos q (List.mem_cons_of_mem p hq)) hcash1 j hi1 c hg1
      simpa using hrec
    | zero =>
      cases rest with
      | nil =>
        have hL1 : L1 = [] :=
          (Except.ok.inj (hr : (Except.ok [] : Except String (List Row)) = Except.ok L1)).symm
        subst hL1
        simp at hi
      | cons q rest2 =>
        obtain ⟨c1, L2, hc1, hr2, hL1⟩ := runWeeks_cons_ok hr
        subst hL1
        have hgetc0 : (stepCore iv prev p (q :: rest2).head? st.shares c0 st.prems).2.cash
            = some c := by simpa using hgetc
        have hceq : c = c1 := by
          rw [(stepCore_row_eq_state iv prev p (q :: rest2).head? st.shares c0 st.prems).2.1,
            hc1] at hgetc0
          exact (Option.some.inj hgetc0).symm
        subst hceq
        have hc1n : 0 ≤ c := hcash1 c hc1
        have hq : 0 < q := hpos q (List.mem_cons_of_mem p (List.mem_cons_self q rest2))
        obtain ⟨hprice, hshares⟩ := stepCore_row_recurrence iv (prev ++ [p]) q rest2.head?
          ((stepCore iv prev p (q :: rest2).head? st.shares c0 st.prems).1.shares) c
          ((stepCore iv prev p (q :: rest2).head? st.shares c0 st.prems).1.prems) hq hc1n
        simp only [List.getD_cons_succ, List.getD_cons_zero]
        rw [hshares, hprice,
          (stepCore_row_eq_state iv prev p (q :: rest2).head? st.shares c0 st.prems).1]

/-! ## Ledger-level claims -/

/-- C9: every ledger row of a completed run records a nonnegative share
count: reinvestment only adds shares, and assignment subtracts exactly
`contracts * 100` out of the same share count the contracts were sized
from, leaving `shares % 100`. -/
theorem shares_never_negative (ticker : Bool) (getIv : ℝ → Option ℝ)
    (initialCash : ℝ) (weekly : List ℝ) (L : List Row)
    (h : generateSignals ticker getIv initialCash weekly = Except.ok L) :
    ∀ row ∈ L, 0 ≤ row.shares := by
  refine generateSignals_ok_elim h fun iv hrun => ?_
  refine runWeeks_mem_of_stepProp (fun st => 0 ≤ st.shares)
    (fun row => 0 ≤ row.shares) ?_ hrun (by norm_num [initState])
  intro prev price next? st c hc hInv
  have hst1 : 0 ≤ (stepCore iv prev price next? st.shares c st.prems).1.shares := by
    rcases stepCore_fst_shares_cases iv prev price next? st.shares c st.prems with he | he
    · rw [he]
      exact le_trans hInv (reinvest_fst_ge _ _ _)
    · rw [he, Int.fmod_eq_emod _ (by norm_num)]
      exact Int.emod_nonneg _ (by norm_num)
  refine ⟨hst1, ?_⟩
  show 0 ≤ (stepCore iv prev price next? st.shares c st.prems).2.shares
  rw [(stepCore_row_eq_state iv prev price next? st.shares c st.prems).1]
  exact hst1

/-- C10: in every ledger row, an assigned week records exactly the leftover
(non-round-lot) shares, and an unassigned week records
`contracts * 100 + leftover`. -/
theorem shares_leftover_identity (ticker : Bool) (getIv : ℝ → Option ℝ)
    (initialCash : ℝ) (weekly : List ℝ) (L : List Row)
    (h : generateSignals ticker getIv initialCash weekly = Except.ok L) :
    ∀ row ∈ L, (row.assignment = true → row.shares = row.leftover) ∧
      (row.assignment = false →
        row.shares = row.contracts * 100 + row.leftover) := by
  refine generateSignals_ok_elim h fun iv hrun => ?_
  refine runWeeks_mem_of_stepProp (fun _ => True)
    (fun row => (row.assignment = true → row.shares = row.leftover) ∧
      (row.assignment = false → row.shares = row.contracts * 100 + row.leftover))
    ?_ hrun trivial
  intro prev price next? st c hc _
  exact ⟨trivial, stepCore_row_identity iv prev price next? st.shares c st.prems⟩

/-- C5: consecutive ledger rows are related by the reinvestment and
assignment arithmetic: next week's shares are this week's shares plus
`floor(cash / price)` bought at the start of next week, minus
`100 * contracts` when next week was assigned. -/
theorem shares_recurrence (ticker : Bool) (getIv : ℝ → Option ℝ)
    (initialCash : ℝ) (weekly : List ℝ) (L : List Row)
    (h0 : 0 ≤ initialCash)
    (h : generateSignals ticker getIv initialCash weekly = Except.ok L)
    (i : ℕ) (hi : i + 1 < L.length) (c : ℝ)
    (hc : (L.getD i default).cash = some c) :
    (L.getD (i + 1) default).shares
      = (L.getD i default).shares + ⌊c / (L.getD (i + 1) default).price⌋ -
        (if (L.getD (i + 1) default).assignment then
          100 * (L.getD (i + 1) default).contracts else 0) := by
  refine generateSignals_ok_elim h fun iv hrun => ?_
  refine runWeeks_chain hrun ?_ ?_ i hi c hc
  · intro p hp
    have hdec := (List.mem_filter.1 hp).2
    simpa using hdec
  · intro c0 hc0
    simp only [initState] at hc0
    rw [← Option.some.inj hc0]
    exact h0

/-! ## Concrete runs -/

lemma runWeeks_nil_eq (iv : Option ℝ) (prev : List ℝ) (st : SimState) :
    runWeeks iv prev st [] = Except.ok [] := rfl

lemma step0_eval (next? : Option ℝ) (h : next? = none ∨ next? = some 100) :
    stepCore none [] 100 next? 100 0 (some 0) =
      (⟨100, some week0cash, some week0cash⟩, week0row) := by
  have hfd : (100:ℤ).fdiv 100 = 1 := by decide
  have hfm : (100:ℤ).fmod 100 = 0 := by decide
  have hri : reinvest 100 100 0 = (100, 0) := by
    unfold reinvest
    norm_num
  rcases h with h | h <;> subst h <;>
    norm_num [stepCore, hri, hfd, hfm, selectSigma, histSigma, premiumStep,
      assignmentStep, optAdd, week0cash, week0row]

lemma week0cash_nonneg : 0 ≤ week0cash := bs_nonneg _ _ _ _ _

lemma week0cash_lt : week0cash < 100 :=
  bs_lt_spot 100 105 (1 / 52) 0.02 0.2 (by norm_num)

lemma floor_week0cash : ⌊week0cash / 100⌋ = 0 := by
  rw [Int.floor_eq_zero_iff, Set.mem_Ico]
  constructor
  · exact div_nonneg week0cash_nonneg (by norm_num)
  · rw [div_lt_one (by norm_num)]
    exact week0cash_lt

lemma reinvest_week1 : reinvest 100 100 week0cash = (100, week0cash) := by
  unfold reinvest
  rw [floor_week0cash]
  norm_num

lemma sigma_week1 : selectSigma none [100] 100 = none := by
  norm_num [selectSigma, histSigma, seriesStd, logrets]

lemma step1_none_eval :
    stepCore none [100] 100 none 100 week0cash (some week0cash) =
      (⟨100, none, none⟩, week1rowNaN) := by
  have hfd : (100:ℤ).fdiv 100 = 1 := by decide
  have hfm : (100:ℤ).fmod 100 = 0 := by decide
  norm_num [stepCore, reinvest_week1, hfd, hfm, sigma_week1, premiumStep,
    assignmentStep, optAdd, week1rowNaN]

lemma step1_some106_eval :
    stepCore none [100] 100 (some 106) 100 week0cash (some week0cash) =
      (⟨0, none, none⟩,
       { price := 100, shares := 0, contracts := 1, leftover := 0,
         cash := none, premium := none, premsCollected := none, sigma := none,
         value := none, assignment := true }) := by
  have hfd : (100:ℤ).fdiv 100 = 1 := by decide
  have hfm : (100:ℤ).fmod 100 = 0 := by decide
  norm_num [stepCore, reinvest_week1, hfd, hfm, sigma_week1, premiumStep,
    assignmentStep, optAdd]

lemma run1_eval : generateSignals false (fun _ => none) 0 [100] =
    Except.ok [week0row] := by
  have hstep0 := step0_eval none (Or.inl rfl)
  norm_num [generateSignals, runWeeks_cons_eq, runWeeks_nil_eq, initState, hstep0]

lemma run2_eval : generateSignals false (fun _ => none) 0 [100, 100] =
    Except.ok [week0row, week1rowNaN] := by
  have hstep0 := step0_eval (some 100) (Or.inr rfl)
  norm_num [generateSignals, runWeeks_cons_eq, runWeeks_nil_eq, initState,
    hstep0, step1_none_eval]

/-! ## Remaining claims -/

/-- C2: on the spec's own example series `[100, 100, 106]` with no implied
volatility, the week-1 historical volatility is the pandas sample standard
deviation (`ddof = 1`) of a single log-return, i.e. NaN, so far from being
well-defined on the second valid week it floods cash with NaN and the run
crashes on week 2 at `int(cash // price)`. -/
theorem histvol_week1_nan_crashes :
    generateSignals false (fun _ => none) 0 [100, 100, 106] =
      Except.error "ValueError: cannot convert float NaN to integer" := by
  have hstep0 := step0_eval (some 100) (Or.inr rfl)
  norm_num [generateSignals, runWeeks_cons_eq, runWeeks_nil_eq, initState,
    hstep0, step1_some106_eval]

/-- C6: on the two-week series `[100, 100]` with no implied volatility the
run completes, but the week-1 cumulative premiums value is NaN (`none`),
while week 0 records a proper premium, so the premiums column is not
non-decreasing (a NaN compares false against everything). -/
theorem premiums_nan_week1 :
    ledgerOf false (fun _ => none) 0 [100, 100] = [week0row, week1rowNaN] ∧
      week0row.premsCollected = some week0cash ∧
      week1rowNaN.premsCollected = none := by
  refine ⟨?_, rfl, rfl⟩
  unfold ledgerOf
  rw [run2_eval]

/-- C1 counterexample: on an empty price sequence with a (truthy) ticker,
line 76 indexes `valid_weeks[0]` before the loop and the run crashes with
IndexError instead of returning an empty ledger. -/
theorem empty_sequence_with_ticker_crashes :
    generateSignals true (fun _ => none) 0 [] =
      Except.error "IndexError: list index out of range" := rfl

/-- C1 (amended): an input with no valid price points yields an empty
ledger without crashing when no ticker is supplied; with a ticker the
pre-loop implied-volatility fetch indexes the first week and the run fails
with IndexError. -/
theorem empty_sequence_ledger (getIv : ℝ → Option ℝ) (initialCash : ℝ)
    (weekly : List ℝ) (h : weekly.filter (fun p => 0 < p) = []) :
    generateSignals false getIv initialCash weekly = Except.ok [] ∧
      generateSignals true getIv initialCash weekly =
        Except.error "IndexError: list index out of range" := by
  constructor
  · simp only [generateSignals]
    rw [h]
    exact runWeeks_nil_eq none [] (initState initialCash)
  · simp only [generateSignals]
    rw [h]

/-- Witness for C1 at the literally empty input. -/
theorem empty_sequence_ledger_witness :
    generateSignals false (fun _ => none) 0 [] = Except.ok [] ∧
      generateSignals true (fun _ => none) 0 [] =
        Except.error "IndexError: list index out of range" :=
  empty_sequence_ledger (fun _ => none) 0 [] rfl

/-- Witness for C9: the single-week run on `[100]`. -/
theorem shares_never_negative_witness : 0 ≤ week0row.shares :=
  shares_never_negative false (fun _ => none) 0 [100] [week0row] run1_eval
    week0row (List.mem_singleton_self week0row)

/-- Witness for C10: the week-0 row of the run on `[100]` is unassigned and
splits as `contracts * 100 + leftover`. -/
theorem shares_leftover_identity_witness :
    week0row.shares = week0row.contracts * 100 + week0row.leftover :=
  (shares_leftover_identity false (fun _ => none) 0 [100] [week0row] run1_eval
    week0row (List.mem_singleton_self week0row)).2 rfl

/-- Witness for C5: the two-week run on `[100, 100]` at `i = 0`. -/
theorem shares_recurrence_witness :
    (([week0row, week1rowNaN] : List Row).getD 1 default).shares
      = (([week0row, week1rowNaN] : List Row).getD 0 default).shares +
        ⌊week0cash / (([week0row, week1rowNaN] : List Row).getD 1 default).price⌋ -
        (if (([week0row, week1rowNaN] : List Row).getD 1 default).assignment then
          100 * (([week0row, week1rowNaN] : List Row).getD 1 default).contracts
        else 0) :=
  shares_recurrence false (fun _ => none) 0 [100, 100] [week0row, week1rowNaN]
    le_rfl run2_eval 0 (by norm_num) week0cash rfl

end

end CCBacktest
